import Mathlib

/-!
Shallow embedding of `src/p5-regalloc/src/p5-regalloc.c` (compiler phase 5:
local register allocation over a linear ILOC instruction stream).

The C code mutates a singly-linked instruction list in place.  Here the
stream is modelled as a zipper: `doneRev` is the already-processed prefix in
reverse order, `rest` is the unprocessed suffix, and instructions inserted
"directly after the previous instruction" during one step are collected in a
step-local `pending` list (front = closest to the previous instruction,
matching the C splicing `new->next = prev->next; prev->next = new`, under
which later insertions land in front of earlier ones).

The frame-allocator instruction (`add SP, -X => SP`) is aliased by a pointer
in the C code; its mutable immediate is modelled by the state field
`frameImm` together with the node identity `allocTag` (instruction tags model
pointer identity), and the final output patches the immediate back into the
stream.  A `none` result of a step models a null-pointer dereference
(spilling with no latched frame allocator, or inserting after a NULL
previous instruction).

`phys_reg_map` and `offset_arr` are C arrays of `int`; they are modelled as
total functions `Int → Int` (out-of-bounds accesses, which are undefined
behaviour in C, are outside the scope of the claims below).
-/

namespace P5Regalloc

/-- Modelled from the spec: machine-word size constant used for stack-offset
arithmetic (`WORD_SIZE`, defined in the ILOC header, which is not under
`src/`). -/
def WORD_SIZE : Int := 8

/-- Modelled from the spec: the allocator's fixed working limit on distinct
virtual registers (`MAX_VIRTUAL_REGS`, defined in the header, which is not
under `src/`); the C code also reuses this constant as the "unbounded
distance" sentinel of `dist`. -/
def MAX_VIRTUAL_REGS : Int := 2048

/-- Modelled from the spec: operand tags of the ILOC instruction set (the
header defining them is not under `src/`); only the tags inspected or
produced by the allocator are distinguished. -/
inductive OperandType where
  | VIRTUAL_REG
  | PHYSICAL_REG
  | INT_CONST
  | BASE_REG
  | OTHER_OPERAND
  deriving DecidableEq

/-- An ILOC operand: a tag plus the (union-style) `id` and `imm` payload
fields of the C `Operand` struct. -/
structure Operand where
  type : OperandType
  id : Int
  imm : Int
  deriving DecidableEq

def emptyOperand : Operand := ⟨.OTHER_OPERAND, 0, 0⟩

def physical_register (pr : Int) : Operand := ⟨.PHYSICAL_REG, pr, 0⟩

def base_register : Operand := ⟨.BASE_REG, 0, 0⟩

def int_const (c : Int) : Operand := ⟨.INT_CONST, 0, c⟩

/-- Modelled from the spec: instruction forms; only the forms the allocator
inspects (`PUSH`, `I2I`, `ADD_I`, `CALL`) or builds (`STORE_AI`, `LOAD_AI`)
are distinguished, all others are `OTHER_FORM`. -/
inductive ILOCForm where
  | PUSH
  | I2I
  | ADD_I
  | CALL
  | STORE_AI
  | LOAD_AI
  | OTHER_FORM
  deriving DecidableEq

/-- An ILOC instruction: a form and exactly three operand slots.  The fields
`reads` (which slots are read) and `writeSlot` (which slot, if any, is
written) are modelled from the spec: the C code obtains this classification
from `ILOCInsn_get_read_registers` / `ILOCInsn_get_write_register`, supplied
by the instruction-set description, which is not under `src/`.  `tag` models
the node's pointer identity in the linked list. -/
structure ILOCInsn where
  form : ILOCForm
  op0 : Operand
  op1 : Operand
  op2 : Operand
  reads : List Nat
  writeSlot : Option Nat
  tag : Nat
  deriving DecidableEq

def ILOCInsn.getOp (insn : ILOCInsn) (j : Nat) : Operand :=
  if j = 0 then insn.op0 else if j = 1 then insn.op1 else
    if j = 2 then insn.op2 else emptyOperand

/-- Modelled from the spec: the read-operand view of an instruction
(`ILOCInsn_get_read_registers` returns the operands of the read slots, in
slot order). -/
def readOperands (insn : ILOCInsn) : List Operand := insn.reads.map insn.getOp

/-- Modelled from the spec: the write operand of an instruction
(`ILOCInsn_get_write_register`); an instruction with no write slot yields a
non-register operand. -/
def getWriteOperand (insn : ILOCInsn) : Operand :=
  match insn.writeSlot with
  | some j => insn.getOp j
  | none => emptyOperand

/-- Does some read operand of `insn` name virtual register `vr`?  (The inner
loop of `dist` in the C code.) -/
def readsVR (insn : ILOCInsn) (vr : Int) : Bool :=
  (readOperands insn).any fun o => decide (o.type = .VIRTUAL_REG ∧ o.id = vr)

/-- `replace_register` on a single operand: a virtual-register operand with
matching id becomes a physical-register operand (`type` and `id` are
overwritten, `imm` is untouched, as in the C code). -/
def replaceOp (vr pr : Int) (o : Operand) : Operand :=
  if o.type = .VIRTUAL_REG ∧ o.id = vr then { o with type := .PHYSICAL_REG, id := pr } else o

/-- C `replace_register`: replace every matching virtual-register operand of
the instruction by the physical register `pr`. -/
def replace_register (vr pr : Int) (insn : ILOCInsn) : ILOCInsn :=
  { insn with
    op0 := replaceOp vr pr insn.op0
    op1 := replaceOp vr pr insn.op1
    op2 := replaceOp vr pr insn.op2 }

/-- The store instruction built by C `insert_spill`:
`store_ai pr => BP, bp_offset`. -/
def mkStore (pr bp_offset : Int) (t : Nat) : ILOCInsn :=
  { form := .STORE_AI, op0 := physical_register pr, op1 := base_register,
    op2 := int_const bp_offset, reads := [0, 1], writeSlot := none, tag := t }

/-- The load instruction built by C `insert_load`:
`load_ai BP, bp_offset => pr`. -/
def mkLoad (bp_offset pr : Int) (t : Nat) : ILOCInsn :=
  { form := .LOAD_AI, op0 := base_register, op1 := int_const bp_offset,
    op2 := physical_register pr, reads := [0], writeSlot := some 2, tag := t }

/-- Allocator state threaded through the pass (the zipper of the instruction
stream plus the C locals of `allocate_registers`). -/
structure RAState where
  rest : List ILOCInsn
  doneRev : List ILOCInsn
  phys_reg_map : Int → Int
  offset_arr : Int → Int
  frameImm : Option Int
  allocTag : Option Nat
  fresh : Nat

/-- Pointwise array update (C `a[k] = v`). -/
def upd (f : Int → Int) (k v : Int) : Int → Int := fun x => if x = k then v else f x

/-- C `dist` inner recursion: scan the instructions after the current one,
counting from `d`; return the counter at the first instruction whose read
operands include `vr`, or `MAX_VIRTUAL_REGS` at the end of the stream. -/
def distAux (vr : Int) : List ILOCInsn → Int → Int
  | [], _ => MAX_VIRTUAL_REGS
  | insn :: rest, d => if readsVR insn vr then d else distAux vr rest (d + 1)

/-- C `dist(vr, current_insn)`: next-use distance of `vr`, scanning the
instructions after the current one (`later`), starting the count at 1. -/
def dist (vr : Int) (later : List ILOCInsn) : Int := distAux vr later 1

/-- C `insert_spill`: allocate a new spill slot by decrementing the frame
reservation by one word, build the store, and splice it directly after the
previous instruction.  Fails (`none`, modelling a null dereference) if there
is no previous instruction or no latched frame allocator. -/
def insert_spill (pr : Int) (st : RAState) (pending : List ILOCInsn) (hasPrev : Bool) :
    Option (Int × RAState × List ILOCInsn) :=
  if hasPrev = true then
    match st.frameImm with
    | some imm =>
        let bp_offset := imm - WORD_SIZE
        some (bp_offset,
              { st with frameImm := some bp_offset, fresh := st.fresh + 1 },
              mkStore pr bp_offset st.fresh :: pending)
    | none => none
  else none

/-- C `insert_load`: build the load and splice it directly after the
previous instruction. -/
def insert_load (bp_offset pr : Int) (st : RAState) (pending : List ILOCInsn) (hasPrev : Bool) :
    Option (RAState × List ILOCInsn) :=
  if hasPrev = true then
    some ({ st with fresh := st.fresh + 1 }, mkLoad bp_offset pr st.fresh :: pending)
  else none

/-- C `spill`: emit the store for whatever virtual register resides in `pr`,
record its offset in the spill table, and mark `pr` free. -/
def spill (pr : Int) (st : RAState) (pending : List ILOCInsn) (hasPrev : Bool) :
    Option (RAState × List ILOCInsn) :=
  (insert_spill pr st pending hasPrev).map fun r =>
    ({ r.2.1 with
        offset_arr := upd r.2.1.offset_arr (r.2.1.phys_reg_map pr) r.1
        phys_reg_map := upd r.2.1.phys_reg_map pr (-1) }, r.2.2)

/-- The first-free-register scan of C `allocate` (`for i ...
if (phys_reg_map[i] == -1)`). -/
def firstFreeAux (m : Int → Int) : List Nat → Option Nat
  | [] => none
  | i :: is => if m (i : Int) = -1 then some i else firstFreeAux m is

/-- The eviction-candidate scan of C `allocate`: carry `(max_pr, max_pr_dist)`
across the register indices, updating on a strictly greater distance. -/
def maxDistAux (m : Int → Int) (later : List ILOCInsn) : List Nat → Int × Int → Int × Int
  | [], acc => acc
  | i :: is, acc =>
      if dist (m (i : Int)) later > acc.2 then
        maxDistAux m later is ((i : Int), dist (m (i : Int)) later)
      else maxDistAux m later is acc

/-- C `allocate`: claim the first free physical register for `vr`, or, with
none free, evict the resident with the greatest next-use distance (first one
found on a tie), spill it, and assign the freed register to `vr`. -/
def allocate (num : Int) (vr : Int) (later : List ILOCInsn) (st : RAState)
    (pending : List ILOCInsn) (hasPrev : Bool) :
    Option (Int × RAState × List ILOCInsn) :=
  match firstFreeAux st.phys_reg_map (List.range num.toNat) with
  | some i =>
      some ((i : Int), { st with phys_reg_map := upd st.phys_reg_map (i : Int) vr }, pending)
  | none =>
      let mp := (maxDistAux st.phys_reg_map later (List.range num.toNat) (-1, -1)).1
      (spill mp st pending hasPrev).map fun r =>
        (mp, { r.1 with phys_reg_map := upd r.1.phys_reg_map mp vr }, r.2)

/-- The residency scan of C `ensure` (`for i ... if (phys_reg_map[i] == vr)`). -/
def findResidentAux (vr : Int) (m : Int → Int) : List Nat → Option Nat
  | [] => none
  | i :: is => if m (i : Int) = vr then some i else findResidentAux vr m is

/-- C `ensure`: return the physical register holding `vr` if resident;
otherwise allocate one and, if the spill table records an offset for `vr`,
emit a reload directly after the previous instruction. -/
def ensure (num vr : Int) (later : List ILOCInsn) (st : RAState)
    (pending : List ILOCInsn) (hasPrev : Bool) :
    Option (Int × RAState × List ILOCInsn) :=
  match findResidentAux vr st.phys_reg_map (List.range num.toNat) with
  | some i => some ((i : Int), st, pending)
  | none =>
      (allocate num vr later st pending hasPrev).bind fun r =>
        if r.2.1.offset_arr vr ≠ -1 then
          (insert_load (r.2.1.offset_arr vr) r.1 r.2.1 r.2.2 hasPrev).map fun r2 =>
            (r.1, r2.1, r2.2)
        else some r

/-- Rewrite the recorded immediate of the instruction with node identity
`t` (patching the frame allocator's reservation back into the stream). -/
def patchImm (t : Nat) (v : Int) (l : List ILOCInsn) : List ILOCInsn :=
  l.map fun i => if i.tag = t then { i with op1 := { i.op1 with imm := v } } else i

/-- The frame-allocator latch of the main loop: when the current instruction
is a `PUSH` followed by an `I2I` and an `ADD_I`, latch that `ADD_I` as the
frame allocator (committing the previous allocator's accumulated immediate,
if any, into the processed prefix, since its node is no longer aliased). -/
def latchFrameAllocator (insn : ILOCInsn) (restTail : List ILOCInsn) (st : RAState) : RAState :=
  match restTail with
  | n1 :: n2 :: _ =>
      if insn.form = .PUSH ∧ n1.form = .I2I ∧ n2.form = .ADD_I then
        { st with
          doneRev := (match st.allocTag, st.frameImm with
                      | some t, some v => patchImm t v st.doneRev
                      | _, _ => st.doneRev)
          allocTag := some n2.tag
          frameImm := some n2.op1.imm }
      else st
  | _ => st

/-- The per-read-operand loop of `allocate_registers`: for each virtual
register in the (snapshotted) read-operand list, `ensure` it, rewrite the
operand, and free its register when it has no further use. -/
def processReads : List Operand → Int → List ILOCInsn → ILOCInsn → RAState →
    List ILOCInsn → Bool → Option (ILOCInsn × RAState × List ILOCInsn)
  | [], _, _, cur, st, pending, _ => some (cur, st, pending)
  | o :: ops, num, later, cur, st, pending, hasPrev =>
      if o.type = .VIRTUAL_REG then
        (ensure num o.id later st pending hasPrev).bind fun r =>
          processReads ops num later (replace_register o.id r.1 cur)
            (if dist o.id later = MAX_VIRTUAL_REGS then
               { r.2.1 with phys_reg_map := upd r.2.1.phys_reg_map r.1 (-1) }
             else r.2.1)
            r.2.2 hasPrev
      else processReads ops num later cur st pending hasPrev

/-- The call-boundary loop of `allocate_registers`: spill every currently
resident physical register, in index order. -/
def processCallSpills : List Nat → RAState → List ILOCInsn → Bool →
    Option (RAState × List ILOCInsn)
  | [], st, pending, _ => some (st, pending)
  | i :: is, st, pending, hasPrev =>
      if st.phys_reg_map (i : Int) ≠ -1 then
        (spill (i : Int) st pending hasPrev).bind fun r =>
          processCallSpills is r.1 r.2 hasPrev
      else processCallSpills is st pending hasPrev

/-- One iteration of the `FOR_EACH` loop of `allocate_registers`, processing
instruction `insn` (head of the unprocessed suffix; `restTail` is the rest
of that suffix): latch the frame allocator, ensure and rewrite read
operands, allocate and rewrite the write operand, spill across a call, and
append the instruction (preceded by this step's insertions) to the
processed prefix. -/
def processInsn (num : Int) (insn : ILOCInsn) (restTail : List ILOCInsn) (st0 : RAState) :
    Option RAState :=
  (processReads (readOperands insn) num restTail insn (latchFrameAllocator insn restTail st0)
      [] (!st0.doneRev.isEmpty)).bind fun r1 =>
    (if (getWriteOperand r1.1).type = .VIRTUAL_REG then
        (allocate num (getWriteOperand r1.1).id restTail r1.2.1 r1.2.2
            (!st0.doneRev.isEmpty)).map fun r2 =>
          (replace_register (getWriteOperand r1.1).id r2.1 r1.1, r2.2.1, r2.2.2)
      else some r1).bind fun r3 =>
      (if insn.form = .CALL ∧ (!st0.doneRev.isEmpty) = true then
          processCallSpills (List.range num.toNat) r3.2.1 r3.2.2 (!st0.doneRev.isEmpty)
        else some (r3.2.1, r3.2.2)).map fun r4 =>
        { r4.1 with doneRev := r3.1 :: r4.2.reverse ++ r4.1.doneRev }

/-- Process the next unprocessed instruction, if any. -/
def step (num : Int) (st : RAState) : Option RAState :=
  match st.rest with
  | [] => some st
  | insn :: t => processInsn num insn t { st with rest := t }

/-- Run `n` iterations of the main loop. -/
def runN (num : Int) (st : RAState) : Nat → Option RAState
  | 0 => some st
  | n + 1 => (step num st).bind fun st' => runN num st' n

/-- Initial state of one invocation: register file and spill table entirely
free (`-1`), no latched frame allocator, nothing processed.  Fresh node
identities for inserted instructions start above every input identity. -/
def initState (stream : List ILOCInsn) : RAState :=
  { rest := stream, doneRev := [], phys_reg_map := fun _ => -1,
    offset_arr := fun _ => -1, frameImm := none, allocTag := none,
    fresh := stream.foldr (fun i a => max (i.tag + 1) a) 0 }

/-- The output stream: the processed prefix in order, with the latched frame
allocator's accumulated immediate patched back into its instruction. -/
def finalOutput (st : RAState) : List ILOCInsn :=
  match st.allocTag, st.frameImm with
  | some t, some v => patchImm t v st.doneRev.reverse
  | _, _ => st.doneRev.reverse

/-- Observable result of the phase: the fatal configuration error
(`fprintf` + `exit(1)`), the early return on a NULL list, a crash (null
dereference inside the pass), or normal completion with the mutated
stream. -/
inductive RAResult where
  | configError
  | nullList
  | crash
  | completed (output : List ILOCInsn)
  deriving DecidableEq

/-- C `allocate_registers(list, num_physical_registers)`. -/
def allocate_registers (list : Option (List ILOCInsn)) (num : Int) : RAResult :=
  if num ≤ 0 then .configError
  else
    match list with
    | none => .nullList
    | some stream =>
        match runN num (initState stream) stream.length with
        | none => .crash
        | some st => .completed (finalOutput st)

def RAResult.isCompleted : RAResult → Bool
  | .completed _ => true
  | _ => false

/-! ### Specification predicates -/

/-- No operand slot of the instruction is tagged virtual-register. -/
def noVirtualOps (insn : ILOCInsn) : Prop :=
  insn.op0.type ≠ .VIRTUAL_REG ∧ insn.op1.type ≠ .VIRTUAL_REG ∧ insn.op2.type ≠ .VIRTUAL_REG

instance (insn : ILOCInsn) : Decidable (noVirtualOps insn) := by
  unfold noVirtualOps; infer_instance

/-- Every virtual-register operand slot of the instruction is classified as
read or as the written slot (the well-formedness the instruction-set
description guarantees: a register operand is an input or the output). -/
def SlotsClassified (insn : ILOCInsn) : Prop :=
  ∀ j, j < 3 → (insn.getOp j).type = .VIRTUAL_REG → j ∈ insn.reads ∨ insn.writeSlot = some j

instance (insn : ILOCInsn) : Decidable (SlotsClassified insn) := by
  unfold SlotsClassified; infer_instance

/-- A well-formed input stream: every instruction has its virtual-register
operands classified. -/
def WellFormedStream (s : List ILOCInsn) : Prop := ∀ i ∈ s, SlotsClassified i

instance (s : List ILOCInsn) : Decidable (WellFormedStream s) := by
  unfold WellFormedStream; infer_instance

/-- The stream begins with the structural prologue `push; i2i; addI` that the
code latches as the frame allocator, and the leading `push` carries no
virtual-register operand. -/
def prologueHeadedB : List ILOCInsn → Bool
  | p :: n1 :: n2 :: _ =>
      decide (p.form = .PUSH) && decide (n1.form = .I2I) && decide (n2.form = .ADD_I) &&
        decide (noVirtualOps p)
  | _ => false

/-- Zero-based index of the first instruction of the list whose read
operands include `vr` (the instruction `dist` stops at). -/
def firstReadIdx (vr : Int) : List ILOCInsn → Option Nat
  | [] => none
  | i :: t => if readsVR i vr then some 0 else (firstReadIdx vr t).map (· + 1)

/-- Number of spill stores in a list of instructions. -/
def storesIn (l : List ILOCInsn) : Nat :=
  (l.filter fun i => decide (i.form = .STORE_AI)).length

/-! ### Trace projections (observations of the state after `n` iterations) -/

def offsetAfter (stream : List ILOCInsn) (num : Int) (n : Nat) (vr : Int) : Option Int :=
  (runN num (initState stream) n).map fun st => st.offset_arr vr

def mapAfter (stream : List ILOCInsn) (num : Int) (n : Nat) (i : Int) : Option Int :=
  (runN num (initState stream) n).map fun st => st.phys_reg_map i

def frameAfter (stream : List ILOCInsn) (num : Int) (n : Nat) : Option (Option Int) :=
  (runN num (initState stream) n).map fun st => st.frameImm

def storesAfter (stream : List ILOCInsn) (num : Int) (n : Nat) : Option Nat :=
  (runN num (initState stream) n).map fun st => storesIn st.doneRev

/-! ### Concrete instruction streams used as test inputs

These are small ILOC programs in the shape the code generator emits: a
structural prologue `push BP; i2i SP => BP; addI SP, -X => SP`, then
ordinary instructions over virtual registers. -/

def vreg (v : Int) : Operand := ⟨.VIRTUAL_REG, v, 0⟩

def mkI (f : ILOCForm) (o0 o1 o2 : Operand) (rd : List Nat) (w : Option Nat) (t : Nat) :
    ILOCInsn :=
  ⟨f, o0, o1, o2, rd, w, t⟩

def pPush : ILOCInsn := mkI .PUSH base_register emptyOperand emptyOperand [0] none 0

def pI2I : ILOCInsn := mkI .I2I base_register emptyOperand base_register [0] (some 2) 1

def pAddI : ILOCInsn := mkI .ADD_I base_register (int_const 0) base_register [0] (some 2) 2

/-- `loadI c => v`: constant into a virtual register. -/
def loadI (c v : Int) (t : Nat) : ILOCInsn :=
  mkI .OTHER_FORM (int_const c) emptyOperand (vreg v) [] (some 2) t

/-- An instruction reading one virtual register. -/
def rdV (v : Int) (t : Nat) : ILOCInsn :=
  mkI .OTHER_FORM (vreg v) emptyOperand emptyOperand [0] none t

/-- An instruction reading two virtual registers. -/
def rdVV (v w : Int) (t : Nat) : ILOCInsn :=
  mkI .OTHER_FORM (vreg v) (vreg w) emptyOperand [0, 1] none t

/-- An instruction touching no registers. -/
def junkI (t : Nat) : ILOCInsn := mkI .OTHER_FORM emptyOperand emptyOperand emptyOperand [] none t

/-- Input for C2/C1: prologue; `loadI 5 => v0`; `loadI 6 => v1`; an
instruction reading `v0, v1`; an instruction reading `v1`.  With one
physical register this forces `v1` to be evicted (spilled) while processing
the two-read instruction and read again right after it. -/
def ex2 : List ILOCInsn :=
  [pPush, pI2I, pAddI, loadI 5 0 3, loadI 6 1 4, rdVV 0 1 5, rdV 1 6]

/-- The output `allocate_registers` produces on `ex2` with one physical
register (checked by evaluation below): the reload of `v1` (tag 10, from
offset −16) is emitted *before* the store that spills `v1` (tag 8, to
offset −16), and no reload sits between the processed two-read instruction
(tag 5) and the read of `v1` (tag 6). -/
def ex2Out : List ILOCInsn :=
  [pPush, pI2I,
   mkI .ADD_I base_register (int_const (-16)) base_register [0] (some 2) 2,
   mkI .OTHER_FORM (int_const 5) emptyOperand (physical_register 0) [] (some 2) 3,
   mkStore 0 (-8) 7,
   mkI .OTHER_FORM (int_const 6) emptyOperand (physical_register 0) [] (some 2) 4,
   mkLoad (-16) 0 10,
   mkLoad (-8) 0 9,
   mkStore 0 (-16) 8,
   mkI .OTHER_FORM (physical_register 0) (physical_register 0) emptyOperand [0, 1] none 5,
   mkI .OTHER_FORM (physical_register 0) emptyOperand emptyOperand [0] none 6]

/-- Input for C5: with one physical register, `v0` is spilled while
processing `loadI 6 => v1` (slot −8) and spilled a second time while
processing the read of `v1` (slot −24). -/
def ex5 : List ILOCInsn :=
  [pPush, pI2I, pAddI, loadI 5 0 3, loadI 6 1 4, rdV 0 5, rdV 1 6, rdV 0 7]

/-- Input for C6: two consecutive writes of the same virtual register. -/
def ex6 : List ILOCInsn := [loadI 5 0 0, loadI 6 0 1]

/-- Input for C4: a call instruction that is the first instruction of the
stream and writes a virtual register (its return value). -/
def callW : ILOCInsn := mkI .CALL emptyOperand emptyOperand (vreg 0) [] (some 2) 0

def ex4 : List ILOCInsn := [callW]

/-- A call instruction with no register operands. -/
def callN (t : Nat) : ILOCInsn := mkI .CALL emptyOperand emptyOperand emptyOperand [] none t

/-- Input for C8: no prologue, but register pressure forces a spill, so the
pass dereferences the NULL frame-allocator pointer. -/
def ex8 : List ILOCInsn := [loadI 5 0 0, loadI 6 1 1, rdV 0 2]

/-- Input for C9: the prologue already reserves 16 bytes of frame
(`addI SP, -16 => SP`), and one spill occurs. -/
def ex9 : List ILOCInsn :=
  [pPush, pI2I, mkI .ADD_I base_register (int_const (-16)) base_register [0] (some 2) 2,
   loadI 5 0 3, loadI 6 1 4, rdV 0 5]

/-- Lookahead stream for C3 giving the four residents of `ex3st` the
next-use distances `[3, 7, 7, 1]`. -/
def ex3later : List ILOCInsn :=
  [rdV 3 20, junkI 21, rdV 0 22, junkI 23, junkI 24, junkI 25, rdVV 1 2 26]

/-- A mid-pass state for C3: four physical registers holding `v0..v3`, a
latched frame allocator, a nonempty processed prefix. -/
def ex3st : RAState :=
  { rest := [], doneRev := [junkI 30],
    phys_reg_map := upd (upd (upd (upd (fun _ => -1) 0 0) 1 1) 2 2) 3 3,
    offset_arr := fun _ => -1, frameImm := some 0, allocTag := some 2, fresh := 40 }

/-- A state with physical register 0 occupied and register 1 free (first
free register is 1), for the free-claim part of C3. -/
def c3wSt : RAState :=
  { rest := [], doneRev := [], phys_reg_map := upd (fun _ => -1) 0 5,
    offset_arr := fun _ => -1, frameImm := none, allocTag := none, fresh := 0 }

/-- A mid-pass state with one resident register and a latched frame
allocator, used to exercise `spill`, `insert_spill` and the call-boundary
clearing at concrete inputs. -/
def c4wSt : RAState :=
  { rest := [], doneRev := [junkI 30], phys_reg_map := upd (fun _ => -1) 0 0,
    offset_arr := fun _ => -1, frameImm := some 0, allocTag := some 2, fresh := 40 }

/-- An instruction that reads no register at all, for C7. -/
def c7junk : ILOCInsn := junkI 90

/-- An instruction whose read operands include `v5`, for C7. -/
def c7reader : ILOCInsn := rdV 5 91

/-- A stream whose first read of `v5` lies exactly `MAX_VIRTUAL_REGS` steps
ahead of the current instruction. -/
def c7stream : List ILOCInsn := List.replicate 2047 c7junk ++ [c7reader]

/-!
## Theorems

First the concrete evaluations (counterexamples and failing runs), then the
lemma library, then the remaining claim theorems.
-/

/-- Claim C2, failing run.  On `ex2` with one physical register, `v1` is
evicted (spilled) while the two-read instruction (tag 5, point P) is
processed and read again at the next instruction (tag 6, point Q), with no
intervening write to `v1`; yet the output contains no reload between P and
Q: the only reload of `v1`'s recorded offset −16 (tag 10, output index 6)
is emitted *before* P — and even before the store (tag 8, output index 8)
that fills that slot, so at run time it loads the slot before the spill
writes it. -/
theorem c2_reload_misplaced_eval :
    allocate_registers (some ex2) 1 = .completed ex2Out ∧
    readsVR (rdV 1 6) 1 = true ∧
    (ex2Out.drop 9).all (fun i => decide (i.form ≠ .LOAD_AI)) = true ∧
    ex2Out[8]? = some (mkStore 0 (-16) 8) ∧
    ex2Out[6]? = some (mkLoad (-16) 0 10) := by
  decide

/-- Claim C6, failing run.  After the two writes of `v0` in `ex6` (two
physical registers), both register-file entries map to `v0`: the claimed
invariant "at most one entry maps to any given virtual register" is
violated, because `allocate` for a written register never checks whether
the register is already resident. -/
theorem c6_double_residency_eval :
    mapAfter ex6 2 2 0 = some 0 ∧ mapAfter ex6 2 2 1 = some 0 ∧ (0 : Int) ≠ -1 := by
  decide

/-- Claim C4, counterexample.  When a call instruction is the first
instruction of the stream (`ex4`), the call-boundary spill loop is skipped
(`last_processed_insn` is NULL), so immediately after processing the call
the register allocated for its written virtual register is still
resident — the Register File has a non-free entry. -/
theorem c4_first_call_counterexample :
    ex4 = [callW] ∧ callW.form = .CALL ∧
    mapAfter ex4 2 1 0 = some 0 ∧ (0 : Int) ≠ -1 := by
  decide

/-- Claim C5, counterexample.  In `ex5` (one physical register), `v0` is
spilled while `loadI 6 => v1` is processed, recording offset −8; after six
iterations the spill table still records −8 for `v0`, but the seventh
iteration spills `v0` again and overwrites the record with the fresh slot
−24.  The recorded offset of a virtual register is not stable. -/
theorem c5_offset_not_stable_counterexample :
    offsetAfter ex5 1 6 0 = some (-8) ∧ offsetAfter ex5 1 7 0 = some (-24) := by
  decide

/-- Claim C8, counterexample.  With `num_physical_registers = 1 ≥ 1` the
pass does not always run to completion: on `ex8` (no structural prologue,
but register pressure forcing a spill) it dereferences the NULL
frame-allocator pointer — an externally observable failure (crash). -/
theorem c8_crash_counterexample :
    (1 : Int) ≤ 1 ∧ allocate_registers (some ex8) 1 = .crash := by
  decide

/-- Claim C9, counterexample.  In `ex9` the latched frame reservation starts
at −16 (the function's own locals); after the single spill so far the
reservation is −24, whose magnitude 24 is not `WORD_SIZE × 1`: the
magnitude equals the initial magnitude plus one word per slot, not
`WORD_SIZE ×` (slots created so far). -/
theorem c9_magnitude_counterexample :
    frameAfter ex9 1 5 = some (some (-24)) ∧ storesAfter ex9 1 5 = some 1 ∧
    (-24 : Int).natAbs ≠ WORD_SIZE.toNat * 1 := by
  decide

/-- Claim C10: called on a NULL instruction list with at least one physical
register, `allocate_registers` returns normally (the early `return`),
reporting no error and mutating nothing. -/
theorem c10_null_list_returns_normally (num : Int) (h : 1 ≤ num) :
    allocate_registers none num = .nullList := by
  unfold allocate_registers
  rw [if_neg (by omega)]

theorem c10_null_list_returns_normally_witness :
    allocate_registers none 1 = .nullList :=
  c10_null_list_returns_normally 1 (by norm_num)

/-! ### Next-use distance -/

theorem distAux_firstReadIdx (vr : Int) :
    ∀ (l : List ILOCInsn) (d : Int),
      distAux vr l d =
        (match firstReadIdx vr l with
         | some k => d + (k : Int)
         | none => MAX_VIRTUAL_REGS)
  | [], d => rfl
  | i :: t, d => by
      unfold distAux firstReadIdx
      by_cases h : readsVR i vr
      · simp [h]
      · rw [if_neg h, if_neg h, distAux_firstReadIdx vr t (d + 1)]
        cases hk : firstReadIdx vr t with
        | none => simp
        | some k => simp; ring

theorem distAux_pos (vr : Int) :
    ∀ (l : List ILOCInsn) (d : Int), 1 ≤ d → 1 ≤ distAux vr l d
  | [], d, _ => by norm_num [distAux, MAX_VIRTUAL_REGS]
  | i :: t, d, hd => by
      unfold distAux
      by_cases h : readsVR i vr
      · simpa [h] using hd
      · rw [if_neg h]
        exact distAux_pos vr t (d + 1) (by omega)

theorem dist_pos (vr : Int) (l : List ILOCInsn) : 1 ≤ dist vr l :=
  distAux_pos vr l 1 le_rfl

theorem firstReadIdx_c7 : ∀ n : Nat,
    firstReadIdx 5 (List.replicate n c7junk ++ [c7reader]) = some n
  | 0 => by decide
  | n + 1 => by
      rw [List.replicate_succ, List.cons_append]
      unfold firstReadIdx
      rw [if_neg (by decide), firstReadIdx_c7 n]
      rfl

/-- Claim C7 (amended): `dist(vr, from)` returns the step count (≥ 1) to the
first later instruction whose read operands include `vr`, and the constant
`MAX_VIRTUAL_REGS` when no such instruction exists; that constant is *not*
distinct from genuine step counts — a stream whose first read lies exactly
`MAX_VIRTUAL_REGS` steps ahead yields the same value. -/
theorem c7_dist_characterization (vr : Int) (l : List ILOCInsn) :
    dist vr l =
      (match firstReadIdx vr l with
       | some k => (k : Int) + 1
       | none => MAX_VIRTUAL_REGS) := by
  unfold dist
  rw [distAux_firstReadIdx]
  cases firstReadIdx vr l with
  | none => rfl
  | some k => simp; ring

/-- Claim C7, counterexample: `dist 5` returns `MAX_VIRTUAL_REGS = 2048` both
on a stream that never reads `v5` (the empty suffix) and on `c7stream`,
whose instruction at index 2047 — step count 2048 — does read `v5`: the
sentinel coincides with an actual step count. -/
theorem c7_sentinel_collision_counterexample :
    dist 5 c7stream = MAX_VIRTUAL_REGS ∧
    firstReadIdx 5 c7stream = some 2047 ∧
    readsVR c7reader 5 = true ∧
    dist 5 [] = MAX_VIRTUAL_REGS := by
  refine ⟨?_, firstReadIdx_c7 2047, by decide, by decide⟩
  show distAux 5 c7stream 1 = MAX_VIRTUAL_REGS
  rw [distAux_firstReadIdx, show c7stream = List.replicate 2047 c7junk ++ [c7reader] from rfl,
    firstReadIdx_c7 2047]
  norm_num [MAX_VIRTUAL_REGS]

/-! ### Spill-slot characterizations -/

theorem upd_same (f : Int → Int) (k v : Int) : upd f k v k = v := by simp [upd]

theorem upd_other (f : Int → Int) {k x : Int} (v : Int) (h : x ≠ k) : upd f k v x = f x := by
  simp [upd, h]

theorem insert_spill_eq {pr : Int} {st : RAState} {pend : List ILOCInsn} {f : Int}
    (hf : st.frameImm = some f) :
    insert_spill pr st pend true =
      some (f - WORD_SIZE,
            { st with frameImm := some (f - WORD_SIZE), fresh := st.fresh + 1 },
            mkStore pr (f - WORD_SIZE) st.fresh :: pend) := by
  simp [insert_spill, hf]

theorem insert_spill_inv {pr : Int} {st : RAState} {pend : List ILOCInsn}
    {hp : Bool} {r : Int × RAState × List ILOCInsn}
    (h : insert_spill pr st pend hp = some r) :
    hp = true ∧ ∃ f, st.frameImm = some f ∧
      r = (f - WORD_SIZE,
           { st with frameImm := some (f - WORD_SIZE), fresh := st.fresh + 1 },
           mkStore pr (f - WORD_SIZE) st.fresh :: pend) := by
  unfold insert_spill at h
  split at h
  · next hhp =>
      split at h
      · next f hf =>
          rw [Option.some.injEq] at h
          exact ⟨hhp, f, hf, h.symm⟩
      · exact absurd h (by simp)
  · exact absurd h (by simp)

theorem spill_eq {pr : Int} {st : RAState} {pend : List ILOCInsn} {f : Int}
    (hf : st.frameImm = some f) :
    spill pr st pend true =
      some ({ st with
              frameImm := some (f - WORD_SIZE)
              fresh := st.fresh + 1
              offset_arr := upd st.offset_arr (st.phys_reg_map pr) (f - WORD_SIZE)
              phys_reg_map := upd st.phys_reg_map pr (-1) },
            mkStore pr (f - WORD_SIZE) st.fresh :: pend) := by
  rw [spill, insert_spill_eq hf]
  rfl

theorem spill_inv {pr : Int} {st : RAState} {pend : List ILOCInsn} {hp : Bool}
    {r : RAState × List ILOCInsn} (h : spill pr st pend hp = some r) :
    hp = true ∧ ∃ f, st.frameImm = some f ∧
      r = ({ st with
             frameImm := some (f - WORD_SIZE)
             fresh := st.fresh + 1
             offset_arr := upd st.offset_arr (st.phys_reg_map pr) (f - WORD_SIZE)
             phys_reg_map := upd st.phys_reg_map pr (-1) },
           mkStore pr (f - WORD_SIZE) st.fresh :: pend) := by
  unfold spill at h
  rw [Option.map_eq_some'] at h
  obtain ⟨a, ha, hr⟩ := h
  obtain ⟨hhp, f, hf, rfl⟩ := insert_spill_inv ha
  exact ⟨hhp, f, hf, hr.symm⟩

theorem insert_load_eq {off pr : Int} {st : RAState} {pend : List ILOCInsn} :
    insert_load off pr st pend true =
      some ({ st with fresh := st.fresh + 1 }, mkLoad off pr st.fresh :: pend) := by
  simp [insert_load]

theorem insert_load_inv {off pr : Int} {st : RAState} {pend : List ILOCInsn}
    {hp : Bool} {r : RAState × List ILOCInsn} (h : insert_load off pr st pend hp = some r) :
    hp = true ∧ r = ({ st with fresh := st.fresh + 1 }, mkLoad off pr st.fresh :: pend) := by
  unfold insert_load at h
  split at h
  · next hhp => rw [Option.some.injEq] at h; exact ⟨hhp, h.symm⟩
  · exact absurd h (by simp)

/-- Claim C5 (amended): every call to `spill` records, for the virtual
register resident in `pr`, the offset of the *fresh* slot it allocates (one
word below the current reservation), overwriting whatever offset was
previously recorded for that register — so a register that is spilled,
reloaded and spilled again gets a new offset, as the counterexample shows. -/
theorem c5_spill_records_fresh_offset (pr : Int) (st : RAState) (pend : List ILOCInsn)
    (f : Int) (r : RAState × List ILOCInsn) (hf : st.frameImm = some f)
    (h : spill pr st pend true = some r) :
    r.1.offset_arr (st.phys_reg_map pr) = f - WORD_SIZE ∧
    r.1.frameImm = some (f - WORD_SIZE) ∧
    r.1.phys_reg_map pr = -1 ∧
    r.2 = mkStore pr (f - WORD_SIZE) st.fresh :: pend := by
  rw [spill_eq hf, Option.some.injEq] at h
  subst h
  refine ⟨upd_same _ _ _, rfl, upd_same _ _ _, rfl⟩

theorem c5_spill_records_fresh_offset_witness :
    ((spill 0 c4wSt [] true).map fun r =>
        (r.1.offset_arr (c4wSt.phys_reg_map 0), r.1.frameImm, r.1.phys_reg_map 0)) =
      some (-8, some (-8), -1) := by
  obtain ⟨r, hr⟩ : ∃ r, spill 0 c4wSt [] true = some r := ⟨_, spill_eq rfl⟩
  have h := c5_spill_records_fresh_offset 0 c4wSt [] 0 r rfl hr
  rw [hr, Option.map_some']
  rw [h.1, h.2.1, h.2.2.1]
  rfl

/-- Claim C9 (amended): each `insert_spill` changes the frame reservation
immediate by exactly one machine word (it becomes `f − WORD_SIZE`), and
since the latched prologue reservation is ≤ 0 its magnitude grows by
exactly `WORD_SIZE` per spill slot and never shrinks; the magnitude equals
the latched initial magnitude plus `WORD_SIZE ×` (slots created since the
latch) — it equals `WORD_SIZE ×` (slots created) only when the latched
reservation starts at 0, as the counterexample shows. -/
theorem c9_insert_spill_one_word (pr : Int) (st : RAState) (pend : List ILOCInsn)
    (f : Int) (r : Int × RAState × List ILOCInsn) (hf : st.frameImm = some f)
    (h : insert_spill pr st pend true = some r) :
    r.1 = f - WORD_SIZE ∧ r.2.1.frameImm = some (f - WORD_SIZE) ∧
    r.2.2 = mkStore pr (f - WORD_SIZE) st.fresh :: pend ∧
    (f ≤ 0 → (f - WORD_SIZE).natAbs = f.natAbs + WORD_SIZE.toNat) := by
  rw [insert_spill_eq hf, Option.some.injEq] at h
  subst h
  refine ⟨rfl, rfl, rfl, fun hf0 => ?_⟩
  have : WORD_SIZE = 8 := rfl
  omega

theorem c9_insert_spill_one_word_witness :
    ((insert_spill 0 c4wSt [] true).map fun r => (r.1, r.2.1.frameImm)) =
      some (-8, some (-8)) ∧ ((0 : Int) - WORD_SIZE).natAbs = (0 : Int).natAbs + WORD_SIZE.toNat := by
  obtain ⟨r, hr⟩ : ∃ r, insert_spill 0 c4wSt [] true = some r := ⟨_, insert_spill_eq rfl⟩
  have h := c9_insert_spill_one_word 0 c4wSt [] 0 r rfl hr
  constructor
  · rw [hr, Option.map_some', h.1, h.2.1]
    rfl
  · exact h.2.2.2 le_rfl

/-! ### The allocation policy: first free register, furthest-use eviction -/

theorem firstFreeAux_none (m : Int → Int) :
    ∀ l : List Nat, firstFreeAux m l = none ↔ ∀ i ∈ l, m (i : Int) ≠ -1
  | [] => by simp [firstFreeAux]
  | i :: is => by
      unfold firstFreeAux
      by_cases h : m (i : Int) = -1 <;> simp [h, firstFreeAux_none m is]

theorem firstFreeAux_append_some {m : Int → Int} {l1 : List Nat} {j : Nat}
    (l2 : List Nat) (h : firstFreeAux m l1 = some j) :
    firstFreeAux m (l1 ++ l2) = some j := by
  induction l1 with
  | nil => simp [firstFreeAux] at h
  | cons i is ih =>
      rw [List.cons_append]
      simp only [firstFreeAux] at h ⊢
      by_cases hi : m (i : Int) = -1
      · rwa [if_pos hi] at h ⊢
      · rw [if_neg hi] at h ⊢
        exact ih h

theorem firstFreeAux_append_none {m : Int → Int} {l1 : List Nat}
    (l2 : List Nat) (h : firstFreeAux m l1 = none) :
    firstFreeAux m (l1 ++ l2) = firstFreeAux m l2 := by
  induction l1 with
  | nil => rfl
  | cons i is ih =>
      rw [List.cons_append]
      simp only [firstFreeAux] at h ⊢
      by_cases hi : m (i : Int) = -1
      · rw [if_pos hi] at h; exact absurd h (by simp)
      · rw [if_neg hi] at h ⊢
        exact ih h

/-- The first-free scan of `allocate` finds exactly the least free index. -/
theorem firstFreeAux_range_first {m : Int → Int} :
    ∀ {n j : Nat}, j < n → m (j : Int) = -1 → (∀ k < j, m (k : Int) ≠ -1) →
      firstFreeAux m (List.range n) = some j := by
  intro n
  induction n with
  | zero => intro j hj; omega
  | succ n ih =>
      intro j hj hm hk
      rw [List.range_succ]
      rcases Nat.lt_or_ge j n with hjn | hjn
      · exact firstFreeAux_append_some _ (ih hjn hm hk)
      · have hje : j = n := by omega
        have hnone : firstFreeAux m (List.range n) = none :=
          (firstFreeAux_none m _).mpr fun i hi => by
            have := List.mem_range.mp hi
            exact hk i (by omega)
        rw [firstFreeAux_append_none _ hnone]
        simp only [firstFreeAux]
        rw [hje] at hm
        rw [if_pos hm, hje]

theorem maxDistAux_append (m : Int → Int) (later : List ILOCInsn) (l1 l2 : List Nat) :
    ∀ acc : Int × Int,
      maxDistAux m later (l1 ++ l2) acc = maxDistAux m later l2 (maxDistAux m later l1 acc) := by
  induction l1 with
  | nil => intro acc; rfl
  | cons i is ih =>
      intro acc
      rw [List.cons_append]
      simp only [maxDistAux]
      by_cases h : dist (m (i : Int)) later > acc.2
      · rw [if_pos h, if_pos h, ih]
      · rw [if_neg h, if_neg h, ih]

/-- The eviction scan returns the first register index attaining the maximal
next-use distance among all register indices. -/
theorem maxDistAux_range_spec (m : Int → Int) (later : List ILOCInsn) :
    ∀ n : Nat, 1 ≤ n →
      ∃ j : Nat,
        maxDistAux m later (List.range n) (-1, -1) = ((j : Int), dist (m (j : Int)) later) ∧
        j < n ∧ (∀ i < n, dist (m (i : Int)) later ≤ dist (m (j : Int)) later) ∧
        ∀ i < j, dist (m (i : Int)) later < dist (m (j : Int)) later := by
  intro n
  induction n with
  | zero => exact fun h => absurd h (by omega)
  | succ n ih =>
      intro _
      rcases Nat.eq_zero_or_pos n with rfl | hn
      · refine ⟨0, ?_, Nat.zero_lt_one, ?_, fun i hi => absurd hi (by omega)⟩
        · rw [show List.range 1 = [0] from by decide]
          simp only [maxDistAux]
          rw [if_pos (by have := dist_pos (m ((0 : Nat) : Int)) later; omega)]
        · intro i hi
          have hi0 : i = 0 := by omega
          subst hi0
          exact le_rfl
      · obtain ⟨j, heq, hjn, hmax, hfirst⟩ := ih hn
        rw [List.range_succ, maxDistAux_append, heq]
        simp only [maxDistAux]
        by_cases hgt : dist (m (n : Int)) later > dist (m (j : Int)) later
        · refine ⟨n, ?_, by omega, ?_, ?_⟩
          · dsimp only
            rw [if_pos hgt]
          · intro i hi
            rcases Nat.lt_or_ge i n with hin | hin
            · exact le_of_lt (lt_of_le_of_lt (hmax i hin) hgt)
            · have : i = n := by omega
              subst this; exact le_rfl
          · intro i hi
            exact lt_of_le_of_lt (hmax i hi) hgt
        · refine ⟨j, ?_, by omega, ?_, hfirst⟩
          · dsimp only
            rw [if_neg hgt]
          · intro i hi
            rcases Nat.lt_or_ge i n with hin | hin
            · exact hmax i hin
            · have : i = n := by omega
              subst this; omega

/-- Claim C3: `allocate` claims the first (lowest-index) free physical
register when one exists; with none free it computes the next-use distance
of every resident and evicts the register whose resident has the greatest
distance, ties broken by the first (lowest) register index; in particular,
with residents at distances `[3, 7, 7, 1]` in registers `0..3`, register 1
is evicted and assigned. -/
theorem c3_allocate_eviction_policy :
    (∀ (num vr : Int) (later : List ILOCInsn) (st : RAState) (pend : List ILOCInsn)
        (hp : Bool) (j : Nat), j < num.toNat → st.phys_reg_map (j : Int) = -1 →
        (∀ k < j, st.phys_reg_map (k : Int) ≠ -1) →
        allocate num vr later st pend hp =
          some ((j : Int), { st with phys_reg_map := upd st.phys_reg_map (j : Int) vr }, pend)) ∧
    (∀ (num vr : Int) (later : List ILOCInsn) (st : RAState) (pend : List ILOCInsn)
        (f : Int) (J : Nat), (∀ i < num.toNat, st.phys_reg_map (i : Int) ≠ -1) →
        st.frameImm = some f → J < num.toNat →
        (∀ i < num.toNat,
          dist (st.phys_reg_map (i : Int)) later ≤ dist (st.phys_reg_map (J : Int)) later) →
        (∀ i < J,
          dist (st.phys_reg_map (i : Int)) later < dist (st.phys_reg_map (J : Int)) later) →
        ((allocate num vr later st pend true).map fun r => r.1) = some (J : Int) ∧
        ((allocate num vr later st pend true).map fun r => r.2.1.phys_reg_map (J : Int)) =
          some vr) ∧
    (((allocate 4 9 ex3later ex3st [] true).map fun r => r.1) = some 1 ∧
      dist (ex3st.phys_reg_map 0) ex3later = 3 ∧ dist (ex3st.phys_reg_map 1) ex3later = 7 ∧
      dist (ex3st.phys_reg_map 2) ex3later = 7 ∧ dist (ex3st.phys_reg_map 3) ex3later = 1) := by
  refine ⟨?_, ?_, by decide⟩
  · intro num vr later st pend hp j hj hm hk
    unfold allocate
    rw [firstFreeAux_range_first hj hm hk]
  · intro num vr later st pend f J hfull hf hJ hmax hfirst
    have hnone : firstFreeAux st.phys_reg_map (List.range num.toNat) = none :=
      (firstFreeAux_none _ _).mpr fun i hi => hfull i (List.mem_range.mp hi)
    obtain ⟨j, heq, hjn, hjmax, hjfirst⟩ :=
      maxDistAux_range_spec st.phys_reg_map later num.toNat (by omega)
    have hjJ : j = J := by
      rcases Nat.lt_trichotomy j J with h | h | h
      · have h1 := hfirst j h
        have h2 := hjmax J hJ
        omega
      · exact h
      · have h1 := hjfirst J h
        have h2 := hmax j hjn
        omega
    subst hjJ
    unfold allocate
    rw [hnone, heq]
    dsimp only
    rw [spill_eq hf]
    dsimp only [Option.map_some']
    exact ⟨rfl, congrArg some (upd_same _ _ _)⟩

theorem c3_allocate_eviction_policy_witness :
    allocate 2 7 [] c3wSt [] false =
      some (((1 : Nat) : Int),
            { c3wSt with phys_reg_map := upd c3wSt.phys_reg_map ((1 : Nat) : Int) 7 }, []) ∧
    ((allocate 4 9 ex3later ex3st [] true).map fun r => r.1) = some ((1 : Nat) : Int) := by
  constructor
  · exact c3_allocate_eviction_policy.1 2 7 [] c3wSt [] false 1 (by decide) (by decide)
      (by decide)
  · exact (c3_allocate_eviction_policy.2.1 4 9 ex3later ex3st [] 0 1
      (by decide) rfl (by decide) (by decide) (by decide)).1

/-! ### Preservation lemmas for the engine's operations

Each operation of the allocation engine leaves the stream zipper (`rest`,
`doneRev`, `allocTag`) untouched, keeps the frame reservation latched once
it is latched, and only adds virtual-register-free store/load instructions
to the pending insertions. -/

theorem noVirt_mkStore (pr off : Int) (t : Nat) : noVirtualOps (mkStore pr off t) :=
  ⟨fun h => OperandType.noConfusion h, fun h => OperandType.noConfusion h,
   fun h => OperandType.noConfusion h⟩

theorem noVirt_mkLoad (off pr : Int) (t : Nat) : noVirtualOps (mkLoad off pr t) :=
  ⟨fun h => OperandType.noConfusion h, fun h => OperandType.noConfusion h,
   fun h => OperandType.noConfusion h⟩

/-- Shape of every preservation fact below: the zipper and latch survive,
pending only gains clean instructions. -/
def Keeps (st st' : RAState) (pend pend' : List ILOCInsn) : Prop :=
  st'.rest = st.rest ∧ st'.doneRev = st.doneRev ∧ st'.allocTag = st.allocTag ∧
  (st.frameImm.isSome → st'.frameImm.isSome) ∧
  ∀ x ∈ pend', x ∈ pend ∨ noVirtualOps x

theorem keeps_refl (st : RAState) (pend : List ILOCInsn) : Keeps st st pend pend :=
  ⟨rfl, rfl, rfl, id, fun _ hx => Or.inl hx⟩

theorem keeps_trans {st1 st2 st3 : RAState} {p1 p2 p3 : List ILOCInsn}
    (h1 : Keeps st1 st2 p1 p2) (h2 : Keeps st2 st3 p2 p3) : Keeps st1 st3 p1 p3 := by
  obtain ⟨a1, b1, c1, d1, e1⟩ := h1
  obtain ⟨a2, b2, c2, d2, e2⟩ := h2
  refine ⟨a2.trans a1, b2.trans b1, c2.trans c1, fun h => d2 (d1 h), fun x hx => ?_⟩
  rcases e2 x hx with hx2 | hx2
  · exact e1 x hx2
  · exact Or.inr hx2

theorem insert_spill_keeps {pr : Int} {st : RAState} {pend : List ILOCInsn} {hp : Bool}
    {r : Int × RAState × List ILOCInsn} (h : insert_spill pr st pend hp = some r) :
    Keeps st r.2.1 pend r.2.2 := by
  obtain ⟨hhp, f, hf, rfl⟩ := insert_spill_inv h
  refine ⟨rfl, rfl, rfl, fun _ => rfl, fun x hx => ?_⟩
  rcases List.mem_cons.mp hx with rfl | hx
  · exact Or.inr (noVirt_mkStore _ _ _)
  · exact Or.inl hx

theorem spill_keeps {pr : Int} {st : RAState} {pend : List ILOCInsn} {hp : Bool}
    {r : RAState × List ILOCInsn} (h : spill pr st pend hp = some r) :
    Keeps st r.1 pend r.2 := by
  obtain ⟨hhp, f, hf, rfl⟩ := spill_inv h
  refine ⟨rfl, rfl, rfl, fun _ => rfl, fun x hx => ?_⟩
  rcases List.mem_cons.mp hx with rfl | hx
  · exact Or.inr (noVirt_mkStore _ _ _)
  · exact Or.inl hx

theorem insert_load_keeps {off pr : Int} {st : RAState} {pend : List ILOCInsn} {hp : Bool}
    {r : RAState × List ILOCInsn} (h : insert_load off pr st pend hp = some r) :
    Keeps st r.1 pend r.2 := by
  obtain ⟨hhp, rfl⟩ := insert_load_inv h
  refine ⟨rfl, rfl, rfl, fun hs => hs, fun x hx => ?_⟩
  rcases List.mem_cons.mp hx with rfl | hx
  · exact Or.inr (noVirt_mkLoad _ _ _)
  · exact Or.inl hx

theorem allocate_keeps {num vr : Int} {later : List ILOCInsn} {st : RAState}
    {pend : List ILOCInsn} {hp : Bool} {r : Int × RAState × List ILOCInsn}
    (h : allocate num vr later st pend hp = some r) :
    Keeps st r.2.1 pend r.2.2 := by
  unfold allocate at h
  cases hff : firstFreeAux st.phys_reg_map (List.range num.toNat) with
  | some i =>
      rw [hff, Option.some.injEq] at h
      subst h
      exact keeps_refl st pend
  | none =>
      rw [hff] at h
      dsimp only at h
      rw [Option.map_eq_some'] at h
      obtain ⟨a, ha, rfl⟩ := h
      obtain ⟨ka, kb, kc, kd, ke⟩ := spill_keeps ha
      exact ⟨ka, kb, kc, kd, ke⟩

theorem ensure_keeps {num vr : Int} {later : List ILOCInsn} {st : RAState}
    {pend : List ILOCInsn} {hp : Bool} {r : Int × RAState × List ILOCInsn}
    (h : ensure num vr later st pend hp = some r) :
    Keeps st r.2.1 pend r.2.2 := by
  unfold ensure at h
  cases hfr : findResidentAux vr st.phys_reg_map (List.range num.toNat) with
  | some i =>
      rw [hfr, Option.some.injEq] at h
      subst h
      exact keeps_refl st pend
  | none =>
      rw [hfr, Option.bind_eq_some] at h
      obtain ⟨a, ha, h⟩ := h
      have hk := allocate_keeps ha
      split at h
      · rw [Option.map_eq_some'] at h
        obtain ⟨b, hb, rfl⟩ := h
        exact keeps_trans hk (insert_load_keeps hb)
      · rw [Option.some.injEq] at h
        subst h
        exact hk

theorem processReads_keeps :
    ∀ {ops : List Operand} {num : Int} {later : List ILOCInsn} {cur : ILOCInsn}
      {st : RAState} {pend : List ILOCInsn} {hp : Bool}
      {r : ILOCInsn × RAState × List ILOCInsn},
      processReads ops num later cur st pend hp = some r → Keeps st r.2.1 pend r.2.2 := by
  intro ops
  induction ops with
  | nil =>
      intro num later cur st pend hp r h
      rw [processReads, Option.some.injEq] at h
      subst h
      exact keeps_refl st pend
  | cons o ops ih =>
      intro num later cur st pend hp r h
      rw [processReads] at h
      split at h
      · rw [Option.bind_eq_some] at h
        obtain ⟨a, ha, h⟩ := h
        have hk := ensure_keeps ha
        have hk2 := ih h
        refine keeps_trans hk (keeps_trans ?_ hk2)
        split
        · exact ⟨rfl, rfl, rfl, fun hs => hs, fun x hx => Or.inl hx⟩
        · exact keeps_refl _ _
      · exact ih h

theorem processCallSpills_keeps :
    ∀ {l : List Nat} {st : RAState} {pend : List ILOCInsn} {hp : Bool}
      {r : RAState × List ILOCInsn},
      processCallSpills l st pend hp = some r → Keeps st r.1 pend r.2 := by
  intro l
  induction l with
  | nil =>
      intro st pend hp r h
      rw [processCallSpills, Option.some.injEq] at h
      subst h
      exact keeps_refl st pend
  | cons i is ih =>
      intro st pend hp r h
      rw [processCallSpills] at h
      split at h
      · rw [Option.bind_eq_some] at h
        obtain ⟨a, ha, h⟩ := h
        exact keeps_trans (spill_keeps ha) (ih h)
      · exact ih h

theorem patchImm_noVirt {t : Nat} {v : Int} {l : List ILOCInsn}
    (h : ∀ x ∈ l, noVirtualOps x) : ∀ x ∈ patchImm t v l, noVirtualOps x := by
  intro x hx
  rw [patchImm, List.mem_map] at hx
  obtain ⟨y, hy, rfl⟩ := hx
  have hv := h y hy
  split
  · exact ⟨hv.1, hv.2.1, hv.2.2⟩
  · exact hv

theorem latchFrameAllocator_keeps (insn : ILOCInsn) (rt : List ILOCInsn) (st : RAState) :
    (latchFrameAllocator insn rt st).rest = st.rest ∧
    (latchFrameAllocator insn rt st).phys_reg_map = st.phys_reg_map ∧
    (latchFrameAllocator insn rt st).offset_arr = st.offset_arr ∧
    (st.frameImm.isSome → (latchFrameAllocator insn rt st).frameImm.isSome) ∧
    (st.doneRev ≠ [] → (latchFrameAllocator insn rt st).doneRev ≠ []) ∧
    ((∀ x ∈ st.doneRev, noVirtualOps x) →
      ∀ x ∈ (latchFrameAllocator insn rt st).doneRev, noVirtualOps x) := by
  unfold latchFrameAllocator
  split
  · split
    · refine ⟨rfl, rfl, rfl, fun _ => rfl, ?_, ?_⟩
      · intro hne
        dsimp only
        split
        · next t v _ _ =>
            intro hc
            rw [patchImm, List.map_eq_nil_iff] at hc
            exact hne hc
        · exact hne
      · intro hall x hx
        dsimp only at hx
        revert hx
        split
        · exact fun hx => patchImm_noVirt hall x hx
        · exact fun hx => hall x hx
    · exact ⟨rfl, rfl, rfl, fun hs => hs, fun hne => hne, fun hall => hall⟩
  · exact ⟨rfl, rfl, rfl, fun hs => hs, fun hne => hne, fun hall => hall⟩

/-- Master elimination for one iteration of the main loop. -/
theorem processInsn_elim {num : Int} {insn : ILOCInsn} {rt : List ILOCInsn}
    {st0 st' : RAState} (h : processInsn num insn rt st0 = some st') :
    ∃ (r1 : ILOCInsn × RAState × List ILOCInsn) (cur2 : ILOCInsn) (stB : RAState)
      (pB : List ILOCInsn) (stC : RAState) (pC : List ILOCInsn),
      processReads (readOperands insn) num rt insn (latchFrameAllocator insn rt st0) []
          (!st0.doneRev.isEmpty) = some r1 ∧
      (((getWriteOperand r1.1).type = .VIRTUAL_REG ∧
          ∃ r2, allocate num (getWriteOperand r1.1).id rt r1.2.1 r1.2.2
              (!st0.doneRev.isEmpty) = some r2 ∧
            cur2 = replace_register (getWriteOperand r1.1).id r2.1 r1.1 ∧
            stB = r2.2.1 ∧ pB = r2.2.2) ∨
        ((getWriteOperand r1.1).type ≠ .VIRTUAL_REG ∧ cur2 = r1.1 ∧ stB = r1.2.1 ∧
          pB = r1.2.2)) ∧
      ((insn.form = .CALL ∧ (!st0.doneRev.isEmpty) = true) ∧
          processCallSpills (List.range num.toNat) stB pB (!st0.doneRev.isEmpty) =
            some (stC, pC) ∨
        ¬(insn.form = .CALL ∧ (!st0.doneRev.isEmpty) = true) ∧ stC = stB ∧ pC = pB) ∧
      st' = { stC with doneRev := cur2 :: pC.reverse ++ stC.doneRev } := by
  unfold processInsn at h
  rw [Option.bind_eq_some] at h
  obtain ⟨r1, hr1, h⟩ := h
  rw [Option.bind_eq_some] at h
  obtain ⟨r3, hr3, h⟩ := h
  rw [Option.map_eq_some'] at h
  obtain ⟨r4, hr4, rfl⟩ := h
  refine ⟨r1, r3.1, r3.2.1, r3.2.2, r4.1, r4.2, hr1, ?_, ?_, rfl⟩
  · revert hr3
    split
    · next hw =>
        intro hr3
        rw [Option.map_eq_some'] at hr3
        obtain ⟨r2, hr2, rfl⟩ := hr3
        exact Or.inl ⟨hw, r2, hr2, rfl, rfl, rfl⟩
    · next hw =>
        intro hr3
        rw [Option.some.injEq] at hr3
        subst hr3
        exact Or.inr ⟨hw, rfl, rfl, rfl⟩
  · revert hr4
    split
    · next hc => exact fun hr4 => Or.inl ⟨hc, by rw [hr4]⟩
    · next hc =>
        intro hr4
        rw [Option.some.injEq] at hr4
        exact Or.inr ⟨hc, by rw [← hr4], by rw [← hr4]⟩

/-! ### Totality of the pass under a latched frame allocator

Once a previous instruction exists and a frame allocator has been latched,
no operation of the engine can fail; a stream headed by the structural
prologue latches during the very first iteration, which itself performs no
insertion. -/

theorem insert_spill_total (pr : Int) (st : RAState) (pend : List ILOCInsn)
    (hf : st.frameImm.isSome) : ∃ r, insert_spill pr st pend true = some r := by
  obtain ⟨f, hf⟩ := Option.isSome_iff_exists.mp hf
  exact ⟨_, insert_spill_eq hf⟩

theorem spill_total (pr : Int) (st : RAState) (pend : List ILOCInsn)
    (hf : st.frameImm.isSome) : ∃ r, spill pr st pend true = some r := by
  obtain ⟨f, hf⟩ := Option.isSome_iff_exists.mp hf
  exact ⟨_, spill_eq hf⟩

theorem allocate_total (num vr : Int) (later : List ILOCInsn) (st : RAState)
    (pend : List ILOCInsn) (hf : st.frameImm.isSome) :
    ∃ r, allocate num vr later st pend true = some r := by
  unfold allocate
  cases hff : firstFreeAux st.phys_reg_map (List.range num.toNat) with
  | some i => exact ⟨_, rfl⟩
  | none =>
      dsimp only
      obtain ⟨a, ha⟩ := spill_total
        (maxDistAux st.phys_reg_map later (List.range num.toNat) (-1, -1)).1 st pend hf
      rw [ha, Option.map_some']
      exact ⟨_, rfl⟩

theorem ensure_total (num vr : Int) (later : List ILOCInsn) (st : RAState)
    (pend : List ILOCInsn) (hf : st.frameImm.isSome) :
    ∃ r, ensure num vr later st pend true = some r := by
  unfold ensure
  cases hfr : findResidentAux vr st.phys_reg_map (List.range num.toNat) with
  | some i => exact ⟨_, rfl⟩
  | none =>
      obtain ⟨a, ha⟩ := allocate_total num vr later st pend hf
      rw [ha, Option.some_bind]
      by_cases ho : a.2.1.offset_arr vr ≠ -1
      · rw [if_pos ho, insert_load_eq, Option.map_some']
        exact ⟨_, rfl⟩
      · rw [if_neg ho]
        exact ⟨_, rfl⟩

theorem processReads_total :
    ∀ (ops : List Operand) (num : Int) (later : List ILOCInsn) (cur : ILOCInsn)
      (st : RAState) (pend : List ILOCInsn), st.frameImm.isSome →
      ∃ r, processReads ops num later cur st pend true = some r := by
  intro ops
  induction ops with
  | nil => exact fun _ _ _ _ _ _ => ⟨_, rfl⟩
  | cons o ops ih =>
      intro num later cur st pend hf
      rw [processReads]
      split
      · obtain ⟨a, ha⟩ := ensure_total num o.id later st pend hf
        rw [ha, Option.some_bind]
        have hfa : a.2.1.frameImm.isSome := (ensure_keeps ha).2.2.2.1 hf
        split
        · exact ih num later _ _ _ hfa
        · exact ih num later _ _ _ hfa
      · exact ih num later cur st pend hf

theorem processCallSpills_total :
    ∀ (l : List Nat) (st : RAState) (pend : List ILOCInsn), st.frameImm.isSome →
      ∃ r, processCallSpills l st pend true = some r := by
  intro l
  induction l with
  | nil => exact fun _ _ _ => ⟨_, rfl⟩
  | cons i is ih =>
      intro st pend hf
      rw [processCallSpills]
      split
      · obtain ⟨a, ha⟩ := spill_total (i : Int) st pend hf
        rw [ha, Option.some_bind]
        exact ih _ _ ((spill_keeps ha).2.2.2.1 hf)
      · exact ih st pend hf

theorem processInsn_total (num : Int) (insn : ILOCInsn) (rt : List ILOCInsn) (st0 : RAState)
    (hd : st0.doneRev ≠ []) (hf : st0.frameImm.isSome) :
    ∃ st', processInsn num insn rt st0 = some st' ∧ st'.doneRev ≠ [] ∧
      st'.frameImm.isSome ∧ st'.rest = st0.rest := by
  have hp : (!st0.doneRev.isEmpty) = true := by
    cases h : st0.doneRev with
    | nil => exact absurd h hd
    | cons a l => rfl
  obtain ⟨l1, l2, l3, l4, l5, l6⟩ := latchFrameAllocator_keeps insn rt st0
  unfold processInsn
  rw [hp]
  obtain ⟨r1, hr1⟩ := processReads_total (readOperands insn) num rt insn
    (latchFrameAllocator insn rt st0) [] (l4 hf)
  rw [hr1, Option.some_bind]
  have kA := processReads_keeps hr1
  have hfA : r1.2.1.frameImm.isSome := kA.2.2.2.1 (l4 hf)
  have hrestA : r1.2.1.rest = st0.rest := kA.1.trans l1
  -- write phase
  have next :
      ∀ (r3 : ILOCInsn × RAState × List ILOCInsn),
        r3.2.1.frameImm.isSome → r3.2.1.rest = st0.rest → r3.2.1.doneRev = r1.2.1.doneRev →
        ∃ st', ((if insn.form = .CALL ∧ true = true then
            processCallSpills (List.range num.toNat) r3.2.1 r3.2.2 true
          else some (r3.2.1, r3.2.2)).map fun r4 =>
            { r4.1 with doneRev := r3.1 :: r4.2.reverse ++ r4.1.doneRev }) = some st' ∧
          st'.doneRev ≠ [] ∧ st'.frameImm.isSome ∧ st'.rest = st0.rest := by
    intro r3 hfB hrB hdB
    split
    · obtain ⟨r4, hr4⟩ := processCallSpills_total (List.range num.toNat) r3.2.1 r3.2.2 hfB
      rw [hr4, Option.map_some']
      have kC := processCallSpills_keeps hr4
      exact ⟨_, rfl, by simp, kC.2.2.2.1 hfB, kC.1.trans hrB⟩
    · rw [Option.map_some']
      exact ⟨_, rfl, by simp, hfB, hrB⟩
  split
  · obtain ⟨r2, hr2⟩ := allocate_total num (getWriteOperand r1.1).id rt r1.2.1 r1.2.2 hfA
    rw [hr2, Option.map_some', Option.some_bind]
    have kB := allocate_keeps hr2
    exact next _ (kB.2.2.2.1 hfA) (kB.1.trans hrestA) kB.2.1
  · rw [Option.some_bind]
    exact next r1 hfA hrestA rfl

theorem step_total (num : Int) (st : RAState) (hd : st.doneRev ≠ [])
    (hf : st.frameImm.isSome) :
    ∃ st', step num st = some st' ∧ st'.doneRev ≠ [] ∧ st'.frameImm.isSome := by
  unfold step
  cases hrest : st.rest with
  | nil => exact ⟨st, rfl, hd, hf⟩
  | cons insn t =>
      obtain ⟨st', h1, h2, h3, _⟩ :=
        processInsn_total num insn t { st with rest := t } hd hf
      exact ⟨st', h1, h2, h3⟩

theorem runN_total {num : Int} :
    ∀ (n : Nat) (st : RAState), st.doneRev ≠ [] → st.frameImm.isSome →
      ∃ st', runN num st n = some st' := by
  intro n
  induction n with
  | zero => exact fun st _ _ => ⟨st, rfl⟩
  | succ n ih =>
      intro st hd hf
      rw [runN]
      obtain ⟨st', h1, h2, h3⟩ := step_total num st hd hf
      rw [h1, Option.some_bind]
      exact ih st' h2 h3

theorem processReads_skip :
    ∀ {ops : List Operand} {num : Int} {later : List ILOCInsn} {cur : ILOCInsn}
      {st : RAState} {pend : List ILOCInsn} {hp : Bool},
      (∀ o ∈ ops, o.type ≠ OperandType.VIRTUAL_REG) →
      processReads ops num later cur st pend hp = some (cur, st, pend) := by
  intro ops
  induction ops with
  | nil => exact fun _ => rfl
  | cons o ops ih =>
      intro num later cur st pend hp h
      rw [processReads, if_neg (h o (List.mem_cons_self o ops))]
      exact ih fun o' ho' => h o' (List.mem_cons_of_mem o ho')

theorem getOp_noVirt {insn : ILOCInsn} (h : noVirtualOps insn) (j : Nat) :
    (insn.getOp j).type ≠ OperandType.VIRTUAL_REG := by
  obtain ⟨h0, h1, h2⟩ := h
  unfold ILOCInsn.getOp
  split_ifs
  · exact h0
  · exact h1
  · exact h2
  · exact fun he => OperandType.noConfusion he

theorem readOperands_noVirt {insn : ILOCInsn} (h : noVirtualOps insn) :
    ∀ o ∈ readOperands insn, o.type ≠ OperandType.VIRTUAL_REG := by
  intro o ho
  rw [readOperands, List.mem_map] at ho
  obtain ⟨j, _, rfl⟩ := ho
  exact getOp_noVirt h j

theorem getWriteOperand_noVirt {insn : ILOCInsn} (h : noVirtualOps insn) :
    (getWriteOperand insn).type ≠ OperandType.VIRTUAL_REG := by
  unfold getWriteOperand
  split
  · next j _ => exact getOp_noVirt h j
  · exact fun he => OperandType.noConfusion he

/-- An instruction with no virtual-register operands is processed without
any insertion or state change beyond the latch and the processed prefix. -/
theorem processInsn_inert {num : Int} {insn : ILOCInsn} {rt : List ILOCInsn} {st : RAState}
    (h : noVirtualOps insn)
    (hc : ¬(insn.form = .CALL ∧ (!st.doneRev.isEmpty) = true)) :
    processInsn num insn rt st =
      some { latchFrameAllocator insn rt st with
             doneRev := insn :: (latchFrameAllocator insn rt st).doneRev } := by
  unfold processInsn
  rw [processReads_skip (readOperands_noVirt h), Option.some_bind,
    if_neg (getWriteOperand_noVirt h), Option.some_bind, if_neg hc, Option.map_some']
  rfl

theorem latchFires_isSome {insn : ILOCInsn} {n1 n2 : ILOCInsn} {rt : List ILOCInsn}
    {st : RAState} (h1 : insn.form = .PUSH) (h2 : n1.form = .I2I) (h3 : n2.form = .ADD_I) :
    (latchFrameAllocator insn (n1 :: n2 :: rt) st).frameImm.isSome := by
  simp only [latchFrameAllocator]
  rw [if_pos ⟨h1, h2, h3⟩]
  rfl

theorem run_completes_with_prologue {num : Int} {s : List ILOCInsn} (_hn : 1 ≤ num)
    (hpl : prologueHeadedB s = true) :
    ∃ st', runN num (initState s) s.length = some st' := by
  match s, hpl with
  | p :: n1 :: n2 :: t, hpl =>
      rw [prologueHeadedB] at hpl
      simp only [Bool.and_eq_true, decide_eq_true_eq] at hpl
      obtain ⟨⟨⟨hp1, hp2⟩, hp3⟩, hp4⟩ := hpl
      rw [show (p :: n1 :: n2 :: t).length = (n1 :: n2 :: t).length + 1 from rfl, runN]
      have hstep :
          step num (initState (p :: n1 :: n2 :: t)) =
            some { latchFrameAllocator p (n1 :: n2 :: t)
                     { initState (p :: n1 :: n2 :: t) with rest := n1 :: n2 :: t } with
                   doneRev := p :: (latchFrameAllocator p (n1 :: n2 :: t)
                     { initState (p :: n1 :: n2 :: t) with rest := n1 :: n2 :: t }).doneRev } := by
        rw [step]
        refine processInsn_inert hp4 fun hcc => ?_
        have hdr : ({ initState (p :: n1 :: n2 :: t) with
            rest := n1 :: n2 :: t } : RAState).doneRev = [] := rfl
        rw [hdr] at hcc
        exact Bool.noConfusion hcc.2
      rw [hstep, Option.some_bind]
      exact runN_total (n1 :: n2 :: t).length _ (by simp)
        (latchFires_isSome hp1 hp2 hp3)

/-- Claim C8 (amended): with `num_physical_registers ≤ 0` the phase reports
the configuration error and stops before processing anything (no mutation);
with `num_physical_registers ≥ 1` it runs to completion with no other
failure mode on any stream headed by the structural prologue (which latches
the frame allocator before any spill can be needed) — but, as the
counterexample shows, a stream that forces a spill before a frame allocator
is latched crashes on a NULL dereference. -/
theorem c8_config_error_and_completion :
    (∀ (l : Option (List ILOCInsn)) (num : Int), num ≤ 0 →
        allocate_registers l num = .configError) ∧
    (∀ (s : List ILOCInsn) (num : Int), 1 ≤ num → prologueHeadedB s = true →
        (allocate_registers (some s) num).isCompleted = true) := by
  constructor
  · intro l num h
    unfold allocate_registers
    rw [if_pos h]
  · intro s num hn hpl
    unfold allocate_registers
    rw [if_neg (by omega)]
    obtain ⟨st', hst⟩ := run_completes_with_prologue hn hpl
    show (match runN num (initState s) s.length with
          | none => RAResult.crash
          | some st => RAResult.completed (finalOutput st)).isCompleted = true
    rw [hst]
    rfl

theorem c8_config_error_and_completion_witness :
    allocate_registers (some ex2) 0 = .configError ∧
    (allocate_registers (some ex2) 1).isCompleted = true :=
  ⟨c8_config_error_and_completion.1 (some ex2) 0 le_rfl,
   c8_config_error_and_completion.2 ex2 1 le_rfl (by decide)⟩

/-! ### Call-boundary clearing -/

theorem spill_map_at {pr : Int} {st : RAState} {pend : List ILOCInsn} {hp : Bool}
    {r : RAState × List ILOCInsn} (h : spill pr st pend hp = some r) (k : Int) :
    r.1.phys_reg_map k = if k = pr then -1 else st.phys_reg_map k := by
  obtain ⟨_, f, hf, rfl⟩ := spill_inv h
  rfl

theorem spill_pend_mono {pr : Int} {st : RAState} {pend : List ILOCInsn} {hp : Bool}
    {r : RAState × List ILOCInsn} (h : spill pr st pend hp = some r) :
    ∀ x ∈ pend, x ∈ r.2 := by
  obtain ⟨_, f, hf, rfl⟩ := spill_inv h
  exact fun x hx => List.mem_cons_of_mem _ hx

theorem processCallSpills_pend_mono :
    ∀ {l : List Nat} {st : RAState} {pend : List ILOCInsn} {hp : Bool}
      {r : RAState × List ILOCInsn}, processCallSpills l st pend hp = some r →
      ∀ x ∈ pend, x ∈ r.2 := by
  intro l
  induction l with
  | nil =>
      intro st pend hp r h x hx
      rw [processCallSpills, Option.some.injEq] at h
      subst h
      exact hx
  | cons i is ih =>
      intro st pend hp r h x hx
      rw [processCallSpills] at h
      split at h
      · rw [Option.bind_eq_some] at h
        obtain ⟨a, ha, h⟩ := h
        exact ih h x (spill_pend_mono ha x hx)
      · exact ih h x hx

theorem processCallSpills_keeps_free :
    ∀ {l : List Nat} {st : RAState} {pend : List ILOCInsn} {hp : Bool}
      {r : RAState × List ILOCInsn}, processCallSpills l st pend hp = some r →
      ∀ k : Int, st.phys_reg_map k = -1 → r.1.phys_reg_map k = -1 := by
  intro l
  induction l with
  | nil =>
      intro st pend hp r h k hk
      rw [processCallSpills, Option.some.injEq] at h
      subst h
      exact hk
  | cons i is ih =>
      intro st pend hp r h k hk
      rw [processCallSpills] at h
      split at h
      · rw [Option.bind_eq_some] at h
        obtain ⟨a, ha, h⟩ := h
        refine ih h k ?_
        rw [spill_map_at ha k]
        split
        · rfl
        · exact hk
      · exact ih h k hk

theorem processCallSpills_clears :
    ∀ {l : List Nat} {st : RAState} {pend : List ILOCInsn} {hp : Bool}
      {r : RAState × List ILOCInsn}, processCallSpills l st pend hp = some r →
      ∀ i ∈ l, r.1.phys_reg_map (i : Int) = -1 := by
  intro l
  induction l with
  | nil => intro st pend hp r h i hi; exact absurd hi (List.not_mem_nil i)
  | cons i is ih =>
      intro st pend hp r h j hj
      rw [processCallSpills] at h
      rcases List.mem_cons.mp hj with rfl | hj
      · split at h
        · rw [Option.bind_eq_some] at h
          obtain ⟨a, ha, h⟩ := h
          refine processCallSpills_keeps_free h _ ?_
          rw [spill_map_at ha _, if_pos rfl]
        · next hni =>
            have : st.phys_reg_map (j : Int) = -1 := by
              by_contra hcon
              exact hni hcon
            exact processCallSpills_keeps_free h _ this
      · split at h
        · rw [Option.bind_eq_some] at h
          obtain ⟨a, ha, h⟩ := h
          exact ih h j hj
        · exact ih h j hj

theorem processCallSpills_stores :
    ∀ {l : List Nat}, l.Nodup →
      ∀ {st : RAState} {pend : List ILOCInsn} {hp : Bool} {r : RAState × List ILOCInsn},
        processCallSpills l st pend hp = some r →
        ∀ i ∈ l, st.phys_reg_map (i : Int) ≠ -1 →
          ∃ x ∈ r.2, x.form = .STORE_AI ∧ x.op0 = physical_register (i : Int) := by
  intro l
  induction l with
  | nil => intro _ st pend hp r h i hi; exact absurd hi (List.not_mem_nil i)
  | cons i is ih =>
      intro hnd st pend hp r h j hj hres
      rw [processCallSpills] at h
      rcases List.mem_cons.mp hj with rfl | hj
      · rw [if_pos hres, Option.bind_eq_some] at h
        obtain ⟨a, ha, h⟩ := h
        obtain ⟨_, f, hf, rfl⟩ := spill_inv ha
        refine ⟨mkStore (j : Int) (f - WORD_SIZE) st.fresh, ?_, rfl, rfl⟩
        exact processCallSpills_pend_mono h _ (List.mem_cons_self _ _)
      · have hji : j ≠ i := fun hc => (List.nodup_cons.mp hnd).1 (hc ▸ hj)
        have hcast : (j : Int) ≠ (i : Int) := fun hc => hji (Nat.cast_injective hc)
        split at h
        · rw [Option.bind_eq_some] at h
          obtain ⟨a, ha, h⟩ := h
          refine ih (List.nodup_cons.mp hnd).2 h j hj ?_
          rw [spill_map_at ha _, if_neg hcast]
          exact hres
        · exact ih (List.nodup_cons.mp hnd).2 h j hj hres

/-- Claim C4 (amended): for every call instruction that is *not* the first
instruction of the stream, immediately after the main pass finishes
processing it every Register File entry is free; the call-boundary loop
visits the registers in index order and, for each register resident when it
runs, emits a spill store of that physical register.  (For a call that *is*
the first instruction the loop is skipped entirely — the counterexample.) -/
theorem c4_call_boundary_clearing :
    (∀ (num : Int) (insn : ILOCInsn) (rt : List ILOCInsn) (st0 st' : RAState),
        insn.form = .CALL → st0.doneRev ≠ [] → processInsn num insn rt st0 = some st' →
        ∀ i : Nat, i < num.toNat → st'.phys_reg_map (i : Int) = -1) ∧
    (∀ (l : List Nat) (st : RAState) (pend : List ILOCInsn) (hp : Bool)
        (r : RAState × List ILOCInsn), l.Nodup → processCallSpills l st pend hp = some r →
        (∀ i ∈ l, r.1.phys_reg_map (i : Int) = -1) ∧
        (∀ i ∈ l, st.phys_reg_map (i : Int) ≠ -1 →
          ∃ x ∈ r.2, x.form = .STORE_AI ∧ x.op0 = physical_register (i : Int))) := by
  constructor
  · intro num insn rt st0 st' hcall hd h i hi
    have hp : (!st0.doneRev.isEmpty) = true := by
      cases hdr : st0.doneRev with
      | nil => exact absurd hdr hd
      | cons a l => rfl
    obtain ⟨r1, cur2, stB, pB, stC, pC, _, _, hcallbr, rfl⟩ := processInsn_elim h
    rcases hcallbr with ⟨_, hcs⟩ | ⟨hne, _, _⟩
    · have := processCallSpills_clears hcs i (List.mem_range.mpr hi)
      exact this
    · exact absurd ⟨hcall, hp⟩ hne
  · intro l st pend hp r hnd h
    exact ⟨processCallSpills_clears h, processCallSpills_stores hnd h⟩

theorem c4_call_boundary_clearing_witness :
    ((processInsn 1 (callN 4) [] c4wSt).map fun s => s.phys_reg_map 0) = some (-1) := by
  obtain ⟨st', hst⟩ : ∃ x, processInsn 1 (callN 4) [] c4wSt = some x := ⟨_, rfl⟩
  rw [hst, Option.map_some']
  have := c4_call_boundary_clearing.1 1 (callN 4) [] c4wSt st' rfl (by decide) hst 0
    (by decide)
  exact congrArg some this

/-! ### No virtual register survives the pass -/

theorem replaceOp_virt {vr pr : Int} {o : Operand}
    (h : (replaceOp vr pr o).type = OperandType.VIRTUAL_REG) :
    o.type = OperandType.VIRTUAL_REG ∧ o.id ≠ vr ∧ replaceOp vr pr o = o := by
  unfold replaceOp at h ⊢
  split at h
  · exact absurd h (fun hc => OperandType.noConfusion hc)
  · next hcond =>
      refine ⟨h, fun hid => hcond ⟨h, hid⟩, ?_⟩
      rw [if_neg hcond]

theorem getOp_replace (vr pr : Int) (insn : ILOCInsn) (j : Nat) :
    (replace_register vr pr insn).getOp j = replaceOp vr pr (insn.getOp j) := by
  unfold ILOCInsn.getOp replace_register
  split_ifs <;> rfl

theorem getOp_ge3 (insn : ILOCInsn) {j : Nat} (h : ¬j < 3) : insn.getOp j = emptyOperand := by
  unfold ILOCInsn.getOp
  rw [if_neg (by omega), if_neg (by omega), if_neg (by omega)]

theorem getWriteOperand_eq {insn : ILOCInsn} {j : Nat} (h : insn.writeSlot = some j) :
    getWriteOperand insn = insn.getOp j := by
  unfold getWriteOperand
  rw [h]

theorem getOp_mem_readOperands {insn : ILOCInsn} {j : Nat} (h : j ∈ insn.reads) :
    insn.getOp j ∈ readOperands insn :=
  List.mem_map_of_mem insn.getOp h

/-- Invariant of the read-operand loop: the rewritten instruction keeps its
form and classification, and any slot still tagged virtual-register was
untouched and its register id appears in none of the processed read
operands. -/
theorem processReads_slots :
    ∀ {ops : List Operand} {num : Int} {later : List ILOCInsn} {cur : ILOCInsn}
      {st : RAState} {pend : List ILOCInsn} {hp : Bool}
      {r : ILOCInsn × RAState × List ILOCInsn},
      processReads ops num later cur st pend hp = some r →
      (r.1.form = cur.form ∧ r.1.reads = cur.reads ∧ r.1.writeSlot = cur.writeSlot) ∧
      ∀ j : Nat, (r.1.getOp j).type = OperandType.VIRTUAL_REG →
        r.1.getOp j = cur.getOp j ∧
        ∀ o ∈ ops, ¬(o.type = OperandType.VIRTUAL_REG ∧ o.id = (cur.getOp j).id) := by
  intro ops
  induction ops with
  | nil =>
      intro num later cur st pend hp r h
      rw [processReads, Option.some.injEq] at h
      subst h
      exact ⟨⟨rfl, rfl, rfl⟩, fun j _ => ⟨rfl, fun o ho => absurd ho (List.not_mem_nil o)⟩⟩
  | cons o ops ih =>
      intro num later cur st pend hp r h
      rw [processReads] at h
      by_cases hv : o.type = OperandType.VIRTUAL_REG
      · rw [if_pos hv, Option.bind_eq_some] at h
        obtain ⟨a, ha, h⟩ := h
        obtain ⟨⟨f1, f2, f3⟩, hslots⟩ := ih h
        refine ⟨⟨f1, f2, f3⟩, ?_⟩
        intro j hj
        obtain ⟨heq, hrest⟩ := hslots j hj
        rw [getOp_replace] at heq
        have hv2 : (replaceOp o.id a.1 (cur.getOp j)).type = OperandType.VIRTUAL_REG := by
          rw [← heq]
          exact hj
        obtain ⟨hvo, hne, hfix⟩ := replaceOp_virt hv2
        rw [hfix] at heq
        refine ⟨heq, ?_⟩
        intro o' ho' hcon
        rcases List.mem_cons.mp ho' with rfl | ho'
        · exact hne hcon.2.symm
        · refine hrest o' ho' ?_
          rw [getOp_replace, hfix]
          exact hcon
      · rw [if_neg hv] at h
        obtain ⟨hf, hslots⟩ := ih h
        refine ⟨hf, fun j hj => ?_⟩
        obtain ⟨heq, hrest⟩ := hslots j hj
        refine ⟨heq, fun o' ho' hcon => ?_⟩
        rcases List.mem_cons.mp ho' with rfl | ho'
        · exact hv hcon.1
        · exact hrest o' ho' hcon

/-- After one full iteration, the processed instruction carries no
virtual-register operand, provided every virtual slot of the original
instruction was classified as read or written. -/
theorem processInsn_noVirt {num : Int} {insn : ILOCInsn} {rt : List ILOCInsn}
    {st0 st' : RAState} (hsc : SlotsClassified insn)
    (hdone : ∀ x ∈ st0.doneRev, noVirtualOps x)
    (h : processInsn num insn rt st0 = some st') :
    ∀ x ∈ st'.doneRev, noVirtualOps x := by
  obtain ⟨r1, cur2, stB, pB, stC, pC, hr1, hwr, hcall, rfl⟩ := processInsn_elim h
  have hlatch := (latchFrameAllocator_keeps insn rt st0).2.2.2.2.2 hdone
  have kA := processReads_keeps hr1
  have hdoneA : ∀ x ∈ r1.2.1.doneRev, noVirtualOps x := fun x hx => hlatch x (kA.2.1 ▸ hx)
  have hpendA : ∀ x ∈ r1.2.2, noVirtualOps x := by
    intro x hx
    rcases kA.2.2.2.2 x hx with hx0 | hx0
    · exact absurd hx0 (List.not_mem_nil x)
    · exact hx0
  have hB : stB.doneRev = r1.2.1.doneRev ∧ ∀ x ∈ pB, noVirtualOps x := by
    rcases hwr with ⟨_, r2, hr2, _, hstB, hpB⟩ | ⟨_, _, hstB, hpB⟩
    · subst hstB; subst hpB
      have k := allocate_keeps hr2
      refine ⟨k.2.1, fun x hx => ?_⟩
      rcases k.2.2.2.2 x hx with hx0 | hx0
      · exact hpendA x hx0
      · exact hx0
    · subst hstB; subst hpB
      exact ⟨rfl, hpendA⟩
  have hC : stC.doneRev = stB.doneRev ∧ ∀ x ∈ pC, noVirtualOps x := by
    rcases hcall with ⟨_, hcs⟩ | ⟨_, hstC, hpC⟩
    · have k := processCallSpills_keeps hcs
      refine ⟨k.2.1, fun x hx => ?_⟩
      rcases k.2.2.2.2 x hx with hx0 | hx0
      · exact hB.2 x hx0
      · exact hx0
    · subst hstC; subst hpC
      exact ⟨rfl, hB.2⟩
  have hcur2 : noVirtualOps cur2 := by
    obtain ⟨⟨f1, f2, f3⟩, hslots⟩ := processReads_slots hr1
    have hmain : ∀ j : Nat, ¬(cur2.getOp j).type = OperandType.VIRTUAL_REG := by
      intro j hj
      rcases hwr with ⟨hwv, r2, hr2, hcur2, _, _⟩ | ⟨hwnv, hcur2, _, _⟩
      · subst hcur2
        rw [getOp_replace] at hj
        obtain ⟨hv1, hne1, hfix1⟩ := replaceOp_virt hj
        obtain ⟨heq, hreads⟩ := hslots j hv1
        have hvins : (insn.getOp j).type = OperandType.VIRTUAL_REG := by
          rw [← heq]
          exact hv1
        have hj3 : j < 3 := by
          by_contra hge
          rw [getOp_ge3 insn hge] at hvins
          exact OperandType.noConfusion hvins
        rcases hsc j hj3 hvins with hrd | hws
        · exact hreads (insn.getOp j) (getOp_mem_readOperands hrd) ⟨hvins, rfl⟩
        · have hgw : getWriteOperand r1.1 = r1.1.getOp j := getWriteOperand_eq (f3.trans hws)
          rw [hgw] at hne1
          exact hne1 rfl
      · subst hcur2
        obtain ⟨heq, hreads⟩ := hslots j hj
        have hvins : (insn.getOp j).type = OperandType.VIRTUAL_REG := by
          rw [← heq]
          exact hj
        have hj3 : j < 3 := by
          by_contra hge
          rw [getOp_ge3 insn hge] at hvins
          exact OperandType.noConfusion hvins
        rcases hsc j hj3 hvins with hrd | hws
        · exact hreads (insn.getOp j) (getOp_mem_readOperands hrd) ⟨hvins, rfl⟩
        · have hgw : getWriteOperand r1.1 = r1.1.getOp j := getWriteOperand_eq (f3.trans hws)
          exact hwnv (by rw [hgw]; exact hj)
    exact ⟨hmain 0, hmain 1, hmain 2⟩
  intro x hx
  rcases List.mem_cons.mp hx with rfl | hx
  · exact hcur2
  · rcases List.mem_append.mp hx with hx | hx
    · exact hC.2 x (List.mem_reverse.mp hx)
    · exact hdoneA x (hB.1 ▸ hC.1 ▸ hx)

theorem processInsn_rest {num : Int} {insn : ILOCInsn} {rt : List ILOCInsn}
    {st0 st' : RAState} (h : processInsn num insn rt st0 = some st') :
    st'.rest = st0.rest := by
  obtain ⟨r1, cur2, stB, pB, stC, pC, hr1, hwr, hcall, rfl⟩ := processInsn_elim h
  have hA : r1.2.1.rest = st0.rest :=
    (processReads_keeps hr1).1.trans (latchFrameAllocator_keeps insn rt st0).1
  have hB : stB.rest = r1.2.1.rest := by
    rcases hwr with ⟨_, r2, hr2, _, hstB, _⟩ | ⟨_, _, hstB, _⟩
    · subst hstB; exact (allocate_keeps hr2).1
    · subst hstB; rfl
  have hC : stC.rest = stB.rest := by
    rcases hcall with ⟨_, hcs⟩ | ⟨_, hstC, _⟩
    · exact (processCallSpills_keeps hcs).1
    · subst hstC; rfl
  exact hC.trans (hB.trans hA)

theorem runN_noVirt {num : Int} :
    ∀ (n : Nat) (st st' : RAState),
      (∀ x ∈ st.doneRev, noVirtualOps x) → (∀ i ∈ st.rest, SlotsClassified i) →
      runN num st n = some st' → ∀ x ∈ st'.doneRev, noVirtualOps x := by
  intro n
  induction n with
  | zero =>
      intro st st' hd _ h
      rw [runN, Option.some.injEq] at h
      subst h
      exact hd
  | succ n ih =>
      intro st st' hd hrest h
      rw [runN, Option.bind_eq_some] at h
      obtain ⟨st1, hst1, h⟩ := h
      rw [step] at hst1
      revert hst1
      cases hr : st.rest with
      | nil =>
          intro hst1
          rw [Option.some.injEq] at hst1
          subst hst1
          exact ih st st' hd hrest h
      | cons insn t =>
          intro hst1
          have hst2 : processInsn num insn t { st with rest := t } = some st1 := hst1
          have hsc : SlotsClassified insn := hrest insn (by rw [hr]; exact List.mem_cons_self _ _)
          have hd1 : ∀ x ∈ st1.doneRev, noVirtualOps x :=
            processInsn_noVirt hsc
              (show ∀ x ∈ ({ st with rest := t } : RAState).doneRev, noVirtualOps x from hd) hst2
          have hrest1 : ∀ i ∈ st1.rest, SlotsClassified i := by
            rw [processInsn_rest hst2]
            intro i hi
            exact hrest i (by rw [hr]; exact List.mem_cons_of_mem _ hi)
          exact ih st1 st' hd1 hrest1 h

theorem finalOutput_noVirt {st : RAState} (h : ∀ x ∈ st.doneRev, noVirtualOps x) :
    ∀ x ∈ finalOutput st, noVirtualOps x := by
  unfold finalOutput
  split
  · exact patchImm_noVirt fun y hy => h y (List.mem_reverse.mp hy)
  · exact fun x hx => h x (List.mem_reverse.mp hx)

theorem allocate_registers_completed {s : List ILOCInsn} {num : Int} {out : List ILOCInsn}
    (h : allocate_registers (some s) num = .completed out) :
    ∃ st', runN num (initState s) s.length = some st' ∧ out = finalOutput st' := by
  unfold allocate_registers at h
  split at h
  · exact absurd h (by simp)
  · have h2 : (match runN num (initState s) s.length with
               | none => RAResult.crash
               | some st => RAResult.completed (finalOutput st)) = .completed out := h
    revert h2
    cases hrn : runN num (initState s) s.length with
    | none => intro h2; exact absurd h2 (by simp)
    | some st =>
        intro h2
        rw [RAResult.completed.injEq] at h2
        exact ⟨st, rfl, h2.symm⟩

/-- Claim C1: after `allocate_registers` completes on a well-formed stream
(every virtual-register operand slot classified as read or written), no
instruction of the output stream — the rewritten originals, the inserted
spill stores and reloads, and the patched frame allocator alike — has an
operand tagged virtual-register. -/
theorem c1_no_virtual_registers_remain (stream : List ILOCInsn) (num : Int)
    (out : List ILOCInsn) (hwf : WellFormedStream stream)
    (h : allocate_registers (some stream) num = .completed out) :
    out.all (fun i => decide (noVirtualOps i)) = true := by
  obtain ⟨st', hrun, rfl⟩ := allocate_registers_completed h
  have hinv := runN_noVirt stream.length (initState stream) st'
    (fun x hx => absurd hx (List.not_mem_nil x)) (fun i hi => hwf i hi) hrun
  rw [List.all_eq_true]
  intro i hi
  rw [decide_eq_true_eq]
  exact finalOutput_noVirt hinv i hi

theorem c1_no_virtual_registers_remain_witness :
    ex2Out.all (fun i => decide (noVirtualOps i)) = true :=
  c1_no_virtual_registers_remain ex2 1 ex2Out (by decide) (by decide)

end P5Regalloc
